/-
Verification of the S-expression parsing and netlist-indexing core of
`kicad_pin_nets.py` (KiCad pin-to-net connections extractor).

The Python source is embedded shallowly:
  * `tokenize_sexp`, `parse_sexp`, `parse_sexp_string` — tokenizer and parser;
  * `find_elements`, `get_element_value` — generic tree queries;
  * `build_pin_net_index`, `build_net_pins_index`, `get_component_refs` —
    the two derived indexes and the component-reference set;
  * `get_component_pin_nets_core`, `get_net_pins_core` — the query resolvers
    (the part of `get_component_pin_nets` / `get_net_pins` that runs after the
    netlist text has been obtained and parsed; file discovery and the
    `kicad-cli` subprocess are external collaborators and are not modelled).

Modelling conventions:
  * Python's untyped nested lists/strings become the `Sexp` inductive.
  * Python dicts (which preserve first-insertion order and overwrite values
    in place) become association lists with `dictInsert` / `dictFind?`.
  * Python's stable `list.sort` becomes the stable insertion sort `pySort`.
  * Character predicates (`isspace`, `isalpha`, `isdigit`, `lower`, `int()`)
    are modelled for the ASCII range (plus the Unicode whitespace set for
    `isspace`); the netlist grammar and all claims are ASCII.
  * Code that can raise an uncaught exception (hashing a parsed list value
    when it is used as a dict/set key, and computing a sort key from a
    non-string field) is modelled with an explicit `raised` outcome /
    `Except.error`.  For sort keys this is conservative: Python computes a
    key from a list-of-strings reference without raising, but every claim
    about sorted output concerns string-valued fields only.
-/
import Mathlib

/-- A node of the generic S-expression tree: Python's `str`-or-`list` values. -/
inductive Sexp where
  | atom (s : String)
  | list (xs : List Sexp)

/-- Python truthiness of a parsed value: a string is truthy iff nonempty,
a list is truthy iff nonempty. -/
def truthy : Sexp → Bool
  | .atom s => s ≠ ""
  | .list xs => !xs.isEmpty

/-- Python's `x or ''` applied to an optional parsed value: `None` and falsy
values are replaced by the empty string. -/
def orEmpty : Option Sexp → Sexp
  | none => .atom ""
  | some v => if truthy v then v else .atom ""

/-! ## Tokenizer (`tokenize_sexp`) -/

/-- Python's `str.isspace` on a single character: the Unicode whitespace set
(ASCII whitespace, the C1 separators, and the Unicode space separators). -/
def pyIsSpace (c : Char) : Bool :=
  c = ' ' || c = '\t' || c = '\n' || c = '\x0b' || c = '\x0c' || c = '\r' ||
  c = '\x1c' || c = '\x1d' || c = '\x1e' || c = '\x1f' || c = '\x85' ||
  c = '\xa0' || c = ' ' ||
  (' ' ≤ c && c ≤ ' ') ||
  c = ' ' || c = ' ' || c = ' ' || c = ' ' || c = '　'

/-- The quoted-string scan of `tokenize_sexp` (the inner `j` loop), applied to
the characters after the opening quote.  Returns the further characters that
belong to the token (including the closing quote when one is found) and the
characters after the token.  A backslash consumes the following character when
there is one; an unescaped `"` ends the scan; otherwise the scan consumes one
character; reaching the end of input ends the scan (unterminated string). -/
def scanQuoted : List Char → List Char × List Char
  | [] => ([], [])
  | '\\' :: [] => (['\\'], [])
  | '\\' :: d :: rest => ('\\' :: d :: (scanQuoted rest).1, (scanQuoted rest).2)
  | '"' :: rest => (['"'], rest)
  | c :: rest => (c :: (scanQuoted rest).1, (scanQuoted rest).2)

/-- The unquoted-token scan of `tokenize_sexp`: consume characters until one
of `(`, `)`, space, tab, newline, carriage return, or `"` is reached. -/
def scanAtom : List Char → List Char × List Char
  | [] => ([], [])
  | c :: rest =>
    if c = '(' || c = ')' || c = ' ' || c = '\t' || c = '\n' || c = '\r' || c = '"' then
      ([], c :: rest)
    else
      let (t, r) := scanAtom rest
      (c :: t, r)

theorem scanQuoted_rest_length (l : List Char) : (scanQuoted l).2.length ≤ l.length := by
  induction l using scanQuoted.induct <;> simp_all [scanQuoted] <;> omega

theorem scanAtom_rest_length (l : List Char) : (scanAtom l).2.length ≤ l.length := by
  induction l using scanAtom.induct <;> simp_all [scanAtom]
  omega

/-- The main loop of `tokenize_sexp`, over the character list of the input.
The fuel only bounds the recursion depth: every step recurses on a strictly
shorter list (`scanQuoted_rest_length` / `scanAtom_rest_length` bound the
scans), so with fuel of at least the input length plus one the fuel-exhausted
branch is never reached, as `tokenizeAux_fuel_irrelevant` proves. -/
def tokenizeAuxF : Nat → List Char → List String
  | 0, _ => []
  | _, [] => []
  | fuel + 1, c :: rest =>
    if pyIsSpace c then tokenizeAuxF fuel rest
    else if c = '(' then "(" :: tokenizeAuxF fuel rest
    else if c = ')' then ")" :: tokenizeAuxF fuel rest
    else if c = '"' then
      String.mk ('"' :: (scanQuoted rest).1) :: tokenizeAuxF fuel (scanQuoted rest).2
    else
      String.mk (c :: (scanAtom rest).1) :: tokenizeAuxF fuel (scanAtom rest).2

theorem tokenizeAuxF_fuel_irrelevant (fuel fuel' : Nat) (l : List Char)
    (h : l.length < fuel) (h' : l.length < fuel') :
    tokenizeAuxF fuel l = tokenizeAuxF fuel' l := by
  induction fuel generalizing fuel' l with
  | zero => omega
  | succ fuel ih =>
    cases fuel' with
    | zero => omega
    | succ fuel' =>
      cases l with
      | nil => rfl
      | cons c rest =>
        simp only [tokenizeAuxF]
        simp only [List.length_cons] at h h'
        have hq := scanQuoted_rest_length rest
        have ha := scanAtom_rest_length rest
        by_cases h1 : pyIsSpace c = true <;> by_cases h2 : c = '(' <;>
          by_cases h3 : c = ')' <;> by_cases h4 : c = '"' <;>
          simp_all <;> exact ih _ _ (by omega) (by omega)

/-- `tokenize_sexp`: tokenize an S-expression string into tokens. -/
def tokenize_sexp (text : String) : List String :=
  tokenizeAuxF (text.toList.length + 1) text.toList

/-! ## Parser (`parse_sexp`, `parse_sexp_string`) -/

/-- Does the list start with the given pattern (used by `pyReplace`). -/
def listStartsWith : List Char → List Char → Bool
  | _, [] => true
  | [], _ :: _ => false
  | h :: t, p :: ps => h = p && listStartsWith t ps

/-- Python's `str.replace` (all occurrences, scanning left to right, without
overlap), over character lists, for a nonempty pattern.  The fuel only bounds
the recursion depth; each step recurses on a strictly shorter list, so fuel of
at least the input length plus one is always sufficient. -/
def pyReplaceF (pat rep : List Char) : Nat → List Char → List Char
  | 0, _ => []
  | _, [] => []
  | fuel + 1, h :: t =>
    if pat ≠ [] && listStartsWith (h :: t) pat then
      rep ++ pyReplaceF pat rep fuel ((h :: t).drop pat.length)
    else h :: pyReplaceF pat rep fuel t

/-- Python's `str.replace` over character lists (with always-sufficient fuel). -/
def pyReplace (pat rep l : List Char) : List Char :=
  pyReplaceF pat rep (l.length + 1) l

/-- The quoted-token unwrapping of `parse_sexp`: strip the surrounding quotes
and apply `token[1:-1].replace('\\"', '"').replace('\\\\', '\\')`. -/
def unescapeQuoted (token : String) : String :=
  let inner := (token.toList.drop 1).dropLast
  String.mk (pyReplace ['\\', '\\'] ['\\'] (pyReplace ['\\', '"'] ['"'] inner))

/-- Python's `token.startswith('"') and token.endswith('"')` test. -/
def isQuotedToken (token : String) : Bool :=
  match token.toList with
  | [] => false
  | c :: rest =>
    c = '"' && (match (c :: rest).getLast? with
                | some d => d = '"'
                | none => false)

/-- A non-parenthesis token as `parse_sexp` interprets it: a quoted token is
unwrapped and unescaped, any other token becomes an atom holding its text. -/
def tokenAtom (token : String) : Sexp :=
  if isQuotedToken token then .atom (unescapeQuoted token) else .atom token

mutual
/-- Fueled version of `parse_sexp(tokens, idx)`.  The fuel only bounds the
recursion depth; `parse_sexp` below supplies fuel exceeding the deepest
possible call chain (every two nested calls consume at least one token), so
the fuel-exhausted branch is never reached from `parse_sexp`. -/
def parseSexpF : Nat → List String → Nat → Option Sexp × Nat
  | 0, _, idx => (none, idx)
  | fuel + 1, tokens, idx =>
    if h : idx < tokens.length then
      let token := tokens.get ⟨idx, h⟩
      if token = "(" then
        let r := parseListF fuel tokens (idx + 1)
        (some (.list r.1), r.2 + 1)
      else if token = ")" then (none, idx + 1)
      else (some (tokenAtom token), idx + 1)
    else (none, idx)

/-- Fueled version of the `while` loop inside the `'('` branch of
`parse_sexp`: parse items until a `')'` token or the end of the tokens,
skipping items parsed as `None`. -/
def parseListF : Nat → List String → Nat → List Sexp × Nat
  | 0, _, idx => ([], idx)
  | fuel + 1, tokens, idx =>
    if h : idx < tokens.length then
      if tokens.get ⟨idx, h⟩ = ")" then ([], idx)
      else
        let item := parseSexpF fuel tokens idx
        let rest := parseListF fuel tokens item.2
        (match item.1 with
         | some x => x :: rest.1
         | none => rest.1, rest.2)
    else ([], idx)
end

/-- `parse_sexp(tokens, idx)`: parse tokens into a nested structure, returning
the parsed value (possibly `None`) and the next index. -/
def parse_sexp (tokens : List String) (idx : Nat) : Option Sexp × Nat :=
  parseSexpF (2 * tokens.length + 2) tokens idx

/-- `parse_sexp_string(text)`: tokenize and parse, keeping only the first
top-level S-expression. -/
def parse_sexp_string (text : String) : Option Sexp :=
  (parse_sexp (tokenize_sexp text) 0).1

/-! ## Tree query utilities (`find_elements`, `get_element_value`) -/

mutual
/-- `find_elements(sexp, name)`: depth-first pre-order collection of every
list node whose first element equals `name` (a match is collected before its
children are searched, and descent continues inside matches). -/
def find_elements (name : String) : Sexp → List Sexp
  | .atom _ => []
  | .list xs =>
    (match xs with
     | .atom k :: _ => if k = name then [Sexp.list xs] else []
     | _ => []) ++ find_elements_list name xs

/-- The `for item in sexp` loop of `find_elements`, over the children. -/
def find_elements_list (name : String) : List Sexp → List Sexp
  | [] => []
  | x :: xs => find_elements name x ++ find_elements_list name xs
end

/-- `get_element_value(element, key)`: the second element of the first child
list whose first element equals `key`, when the child has at least two
elements; `None` otherwise.  Applied to an atom (Python would iterate the
string's characters, none of which is a list) the result is `None`. -/
def get_element_value : Sexp → String → Option Sexp
  | .atom _, _ => none
  | .list xs, key =>
    xs.findSome? fun item =>
      match item with
      | .list (.atom k :: v :: _) => if k = key then some v else none
      | _ => none

/-! ## Python dict and stable sort models -/

/-- Insertion into a Python dict rendered as an association list: assigning to
an existing key overwrites its value in place (keeping the key's original
position in the iteration order); a new key is appended at the end. -/
def dictInsert {K V : Type} [DecidableEq K] : List (K × V) → K → V → List (K × V)
  | [], k, v => [(k, v)]
  | (k', v') :: rest, k, v =>
    if k' = k then (k, v) :: rest else (k', v') :: dictInsert rest k v

/-- Python dict lookup (`d[k]` / `k in d`) in the association-list model. -/
def dictFind? {K V : Type} [DecidableEq K] (k : K) : List (K × V) → Option V
  | [] => none
  | (k', v) :: rest => if k' = k then some v else dictFind? k rest

theorem dictFind?_dictInsert {K V : Type} [DecidableEq K]
    (d : List (K × V)) (k k' : K) (v : V) :
    dictFind? k' (dictInsert d k v) = if k = k' then some v else dictFind? k' d := by
  induction d with
  | nil => by_cases h : k = k' <;> simp [dictInsert, dictFind?, h]
  | cons p rest ih =>
    obtain ⟨a, b⟩ := p
    by_cases h1 : a = k <;> by_cases h2 : k = k' <;>
      simp_all [dictInsert, dictFind?]

/-- Folding a list of key-value assignments into a dict: the resulting lookup
returns the value of the last assignment to the key, and falls back to the
initial dict when the key is never assigned (last-write-wins). -/
theorem dictFind?_foldl_dictInsert {K V : Type} [DecidableEq K]
    (entries : List (K × V)) (init : List (K × V)) (k : K) :
    dictFind? k (entries.foldl (fun d e => dictInsert d e.1 e.2) init) =
      (match (entries.filter (fun e => e.1 = k)).getLast? with
       | some e => some e.2
       | none => dictFind? k init) := by
  induction entries using List.reverseRecOn with
  | nil => simp
  | append_singleton es e ih =>
    rw [List.foldl_append]
    simp only [List.foldl_cons, List.foldl_nil]
    rw [dictFind?_dictInsert, List.filter_append]
    by_cases h : e.1 = k
    · simp [h, List.getLast?_concat]
    · simp [h, ih]

/-- Stable insertion of `x` into a list: `x` is placed before the first
element `e` with `le x e` (so equal elements keep earlier-inserted ones
first, matching the stability of Python's sort). -/
def pyIns {α : Type} (le : α → α → Bool) (x : α) : List α → List α
  | [] => [x]
  | e :: t => if le x e then x :: e :: t else e :: pyIns le x t

/-- Python's stable ascending `list.sort(key=...)`, rendered as insertion
sort over the `le` relation induced by the key.  For a total preorder a
stable sort is unique, so this computes exactly what Python's sort does. -/
def pySort {α : Type} (le : α → α → Bool) : List α → List α
  | [] => []
  | x :: t => pyIns le x (pySort le t)

theorem pyIns_perm {α : Type} (le : α → α → Bool) (x : α) (l : List α) :
    List.Perm (pyIns le x l) (x :: l) := by
  induction l with
  | nil => simp [pyIns]
  | cons e t ih =>
    by_cases h : le x e = true
    · simp [pyIns, h]
    · simp only [pyIns]
      rw [if_neg h]
      exact ((ih.cons e).trans (List.Perm.swap x e t))

theorem pySort_perm {α : Type} (le : α → α → Bool) (l : List α) :
    List.Perm (pySort le l) l := by
  induction l with
  | nil => simp [pySort]
  | cons x t ih => exact (pyIns_perm le x (pySort le t)).trans (ih.cons x)

theorem pyIns_sorted {α : Type} (le : α → α → Bool)
    (htot : ∀ a b, le a b || le b a)
    (htrans : ∀ a b c, le a b = true → le b c = true → le a c = true)
    (x : α) (l : List α)
    (hs : l.Pairwise (fun a b => le a b = true)) :
    (pyIns le x l).Pairwise (fun a b => le a b = true) := by
  induction l with
  | nil => simp [pyIns]
  | cons e t ih =>
    rw [List.pairwise_cons] at hs
    by_cases h : le x e = true
    · simp only [pyIns, if_pos h]
      rw [List.pairwise_cons]
      constructor
      · intro b hb
        rcases List.mem_cons.mp hb with rfl | hb'
        · exact h
        · exact htrans x e b h (hs.1 b hb')
      · exact List.Pairwise.cons hs.1 hs.2
    · simp only [pyIns]
      rw [if_neg h, List.pairwise_cons]
      constructor
      · intro b hb
        have hm := (pyIns_perm le x t).mem_iff.mp hb
        rcases List.mem_cons.mp hm with hbx | hbt
        · rw [hbx]
          have := htot x e
          simp [h] at this
          exact this
        · exact hs.1 b hbt
      · exact ih hs.2

theorem pySort_sorted {α : Type} (le : α → α → Bool)
    (htot : ∀ a b, le a b || le b a)
    (htrans : ∀ a b c, le a b = true → le b c = true → le a c = true)
    (l : List α) :
    (pySort le l).Pairwise (fun a b => le a b = true) := by
  induction l with
  | nil => simp [pySort]
  | cons x t ih => exact pyIns_sorted le htot htrans x (pySort le t) ih

/-! ## Python string ordering, `int()`, `lower()`, substring test -/

/-- Python string `<=`: lexicographic comparison of the code-point
sequences. -/
def lexLe : List Char → List Char → Bool
  | [], _ => true
  | _ :: _, [] => false
  | a :: as, b :: bs =>
    if a.toNat < b.toNat then true
    else if b.toNat < a.toNat then false
    else lexLe as bs

theorem lexLe_total (a b : List Char) : lexLe a b || lexLe b a := by
  induction a generalizing b with
  | nil => simp [lexLe]
  | cons x as ih =>
    cases b with
    | nil => simp [lexLe]
    | cons y bs =>
      by_cases h1 : x.toNat < y.toNat
      · simp [lexLe, h1]
      · by_cases h2 : y.toNat < x.toNat
        · simp [lexLe, h1, h2]
        · simpa [lexLe, h1, h2] using ih bs

theorem charEqOfToNatEq (x y : Char) (h : x.toNat = y.toNat) : x = y := by
  have h1 := Char.ofNat_toNat x
  have h2 := Char.ofNat_toNat y
  rw [← h1, ← h2, h]

theorem lexLe_antisymm : ∀ (a b : List Char),
    lexLe a b = true → lexLe b a = true → a = b
  | [], [], _, _ => rfl
  | [], _ :: _, _, hba => by simp [lexLe] at hba
  | _ :: _, [], hab, _ => by simp [lexLe] at hab
  | x :: as, y :: bs, hab, hba => by
    simp only [lexLe] at hab hba
    by_cases hxy : x.toNat < y.toNat
    · rw [if_neg (by omega), if_pos hxy] at hba
      simp at hba
    · by_cases hyx : y.toNat < x.toNat
      · rw [if_neg hxy, if_pos hyx] at hab
        simp at hab
      · rw [if_neg hxy, if_neg hyx] at hab
        rw [if_neg hyx, if_neg hxy] at hba
        rw [charEqOfToNatEq x y (by omega), lexLe_antisymm as bs hab hba]

theorem lexLe_trans : ∀ (a b c : List Char),
    lexLe a b = true → lexLe b c = true → lexLe a c = true
  | [], _, _, _, _ => by simp [lexLe]
  | _ :: _, [], _, hab, _ => by simp [lexLe] at hab
  | _ :: _, _ :: _, [], _, hbc => by simp [lexLe] at hbc
  | x :: as, y :: bs, z :: cs, hab, hbc => by
    simp only [lexLe] at hab hbc ⊢
    by_cases hxy : x.toNat < y.toNat
    · by_cases hyz : y.toNat < z.toNat
      · rw [if_pos (by omega)]
      · by_cases hzy : z.toNat < y.toNat
        · rw [if_neg hyz, if_pos hzy] at hbc
          simp at hbc
        · rw [if_pos (by omega)]
    · by_cases hyx : y.toNat < x.toNat
      · rw [if_neg hxy, if_pos hyx] at hab
        simp at hab
      · rw [if_neg hxy, if_neg hyx] at hab
        by_cases hyz : y.toNat < z.toNat
        · rw [if_pos (by omega)]
        · by_cases hzy : z.toNat < y.toNat
          · rw [if_neg hyz, if_pos hzy] at hbc
            simp at hbc
          · rw [if_neg hyz, if_neg hzy] at hbc
            rw [if_neg (by omega), if_neg (by omega)]
            exact lexLe_trans as bs cs hab hbc

/-- Python string `<=` on `String`s (code-point lexicographic order). -/
def strLe (a b : String) : Bool := lexLe a.toList b.toList

/-- Remove leading and trailing whitespace, as `int()` does before parsing. -/
def pyStripWs (l : List Char) : List Char :=
  ((l.dropWhile pyIsSpace).reverse.dropWhile pyIsSpace).reverse

/-- ASCII decimal digit test (`str.isdigit` restricted to ASCII). -/
def pyIsDigit (c : Char) : Bool := '0' ≤ c && c ≤ '9'

/-- ASCII alphabetic test (`str.isalpha` restricted to ASCII). -/
def pyIsAlpha (c : Char) : Bool := ('a' ≤ c && c ≤ 'z') || ('A' ≤ c && c ≤ 'Z')

/-- Numeric value of an ASCII digit sequence. -/
def digitsVal (l : List Char) : Nat :=
  l.foldl (fun a c => a * 10 + (c.toNat - 48)) 0

/-- After a first digit, `int()` accepts digits with single underscores
strictly between digits. -/
def pyIntTail : List Char → Bool
  | [] => true
  | '_' :: [] => false
  | '_' :: d :: rest => pyIsDigit d && pyIntTail (d :: rest)
  | c :: rest => pyIsDigit c && pyIntTail rest

/-- The digit part of `int()`: nonempty, starts with a digit, underscores only
between digits; evaluates to the digits' value. -/
def pyIntDigits : List Char → Option Nat
  | [] => none
  | c :: rest =>
    if pyIsDigit c && pyIntTail rest then
      some (digitsVal ((c :: rest).filter (fun d => d ≠ '_')))
    else none

/-- Python's `int(s)` on a string: strip whitespace, optional sign, decimal
digits (ASCII model) with underscores between digits; `none` models the
`ValueError` raised on any other shape. -/
def pyInt (s : String) : Option Int :=
  match pyStripWs s.toList with
  | '+' :: rest => (pyIntDigits rest).map Int.ofNat
  | '-' :: rest => (pyIntDigits rest).map (fun n => -(n : Int))
  | rest => (pyIntDigits rest).map Int.ofNat

/-- Python's `str.lower` (ASCII model). -/
def pyLower (s : String) : String := String.mk (s.toList.map Char.toLower)

/-- Python's substring containment `needle in hay` over character lists
(the empty needle is contained in everything). -/
def strContains : List Char → List Char → Bool
  | _, [] => true
  | [], _ :: _ => false
  | h :: t, n :: ns => listStartsWith (h :: t) (n :: ns) || strContains t (n :: ns)

/-! ## Netlist indexers (`build_pin_net_index`, `build_net_pins_index`,
`get_component_refs`) -/

/-- One step of the node loop in `build_pin_net_index`: a node whose `ref`
and `pin` are both truthy is inserted under the key `(ref, pin)` with value
`(pinfunction, net_name)`.  When a truthy `ref` or `pin` is itself a list,
Python raises `TypeError` while hashing the dict key, modelled as
`Except.error`. -/
def pinNodeStep (net_name : Sexp) (d : List ((String × String) × (Sexp × Sexp)))
    (node : Sexp) : Except Unit (List ((String × String) × (Sexp × Sexp))) :=
  match get_element_value node "ref", get_element_value node "pin" with
  | some rv, some pv =>
    if truthy rv && truthy pv then
      match rv, pv with
      | .atom rs, .atom ps =>
        .ok (dictInsert d (rs, ps)
              (orEmpty (get_element_value node "pinfunction"), net_name))
      | _, _ => .error ()
    else .ok d
  | _, _ => .ok d

/-- `build_pin_net_index(netlist_sexp)`: map `(ref, pin)` to
`(pinfunction, net_name)` over every `net` of the first `nets` section. -/
def build_pin_net_index (netlist_sexp : Sexp) :
    Except Unit (List ((String × String) × (Sexp × Sexp))) :=
  match find_elements "nets" netlist_sexp with
  | [] => .ok []
  | nets_section :: _ =>
    (find_elements "net" nets_section).foldlM
      (fun d net =>
        (find_elements "node" net).foldlM
          (pinNodeStep (orEmpty (get_element_value net "name"))) d)
      []

/-- The entry a node contributes to the pin index, when it contributes one:
`ref` and `pin` present and truthy atoms. -/
def pinEntry? (net_name : Sexp) (node : Sexp) :
    Option ((String × String) × (Sexp × Sexp)) :=
  match get_element_value node "ref", get_element_value node "pin" with
  | some (.atom rs), some (.atom ps) =>
    if rs ≠ "" && ps ≠ "" then
      some ((rs, ps), (orEmpty (get_element_value node "pinfunction"), net_name))
    else none
  | _, _ => none

/-- Does a node make `build_pin_net_index` raise: `ref` and `pin` truthy but
at least one of them a list. -/
def pinNodeBad (node : Sexp) : Bool :=
  match get_element_value node "ref", get_element_value node "pin" with
  | some rv, some pv =>
    (match rv, pv with
     | .atom _, .atom _ => false
     | _, _ => truthy rv && truthy pv)
  | _, _ => false

theorem pinNodeStep_eq (net_name : Sexp)
    (d : List ((String × String) × (Sexp × Sexp))) (node : Sexp) :
    pinNodeStep net_name d node =
      if pinNodeBad node then .error ()
      else .ok (match pinEntry? net_name node with
                | some e => dictInsert d e.1 e.2
                | none => d) := by
  unfold pinNodeStep pinNodeBad pinEntry?
  cases hr : get_element_value node "ref" with
  | none => simp
  | some rv =>
    cases hp : get_element_value node "pin" with
    | none => cases rv <;> simp
    | some pv =>
      cases rv with
      | atom rs =>
        cases pv with
        | atom ps =>
          by_cases h1 : rs = "" <;> by_cases h2 : ps = "" <;>
            simp [truthy, h1, h2]
        | list ps =>
          by_cases h1 : rs = "" <;> simp [truthy, h1, List.isEmpty_iff, Bool.and_true]
      | list rs =>
        cases pv with
        | atom ps =>
          by_cases h2 : ps = "" <;> simp [truthy, h2, List.isEmpty_iff, Bool.and_true]
        | list ps => simp [truthy, List.isEmpty_iff, Bool.and_true]

theorem pinNodeStep_foldlM (net_name : Sexp) (nodes : List Sexp)
    (d : List ((String × String) × (Sexp × Sexp))) :
    nodes.foldlM (pinNodeStep net_name) d =
      if nodes.any pinNodeBad then .error ()
      else .ok ((nodes.filterMap (pinEntry? net_name)).foldl
                  (fun d e => dictInsert d e.1 e.2) d) := by
  induction nodes generalizing d with
  | nil => rfl
  | cons node nodes ih =>
    rw [List.foldlM_cons, pinNodeStep_eq]
    by_cases hb : pinNodeBad node = true
    · rw [if_pos hb]
      have hL : (Except.error () >>= fun d' =>
          List.foldlM (pinNodeStep net_name) d' nodes) =
          (Except.error () : Except Unit (List ((String × String) × (Sexp × Sexp)))) := rfl
      rw [hL, List.any_cons, hb]
      simp
    · rw [if_neg hb, List.any_cons, List.filterMap_cons]
      have hok : ∀ (x : List ((String × String) × (Sexp × Sexp))),
          (Except.ok x >>= fun d' => List.foldlM (pinNodeStep net_name) d' nodes)
            = List.foldlM (pinNodeStep net_name) x nodes := fun _ => rfl
      cases he : pinEntry? net_name node with
      | none =>
        rw [hok, ih]
        simp [hb]
      | some e =>
        rw [hok, ih]
        simp [hb]

/-- The qualifying pin entries of the first `nets` section, in document
order: for every `net` element (nested `find_elements`), every `node` element
with truthy atom `ref` and `pin`, keyed `(ref, pin)` with value
`(pinfunction or '', name or '')`. -/
def pin_entries (netlist_sexp : Sexp) : List ((String × String) × (Sexp × Sexp)) :=
  match find_elements "nets" netlist_sexp with
  | [] => []
  | nets_section :: _ =>
    (find_elements "net" nets_section).flatMap
      (fun net => (find_elements "node" net).filterMap
        (pinEntry? (orEmpty (get_element_value net "name"))))

/-- Does building the pin index raise a `TypeError` somewhere. -/
def pin_bad (netlist_sexp : Sexp) : Bool :=
  match find_elements "nets" netlist_sexp with
  | [] => false
  | nets_section :: _ =>
    (find_elements "net" nets_section).any
      (fun net => (find_elements "node" net).any pinNodeBad)

theorem build_pin_net_index_eq (t : Sexp) :
    build_pin_net_index t =
      if pin_bad t then .error ()
      else .ok ((pin_entries t).foldl (fun d e => dictInsert d e.1 e.2) []) := by
  unfold build_pin_net_index pin_bad pin_entries
  cases hs : find_elements "nets" t with
  | nil => simp
  | cons nets_section rest =>
    have main : ∀ (nets : List Sexp) (d : List ((String × String) × (Sexp × Sexp))),
        nets.foldlM (fun d net =>
            (find_elements "node" net).foldlM
              (pinNodeStep (orEmpty (get_element_value net "name"))) d) d =
          if nets.any (fun net => (find_elements "node" net).any pinNodeBad) then .error ()
          else .ok ((nets.flatMap (fun net => (find_elements "node" net).filterMap
                      (pinEntry? (orEmpty (get_element_value net "name"))))).foldl
                      (fun d e => dictInsert d e.1 e.2) d) := by
      intro nets
      induction nets with
      | nil => intro d; rfl
      | cons net nets ih =>
        intro d
        rw [List.foldlM_cons, pinNodeStep_foldlM]
        by_cases hb : (find_elements "node" net).any pinNodeBad = true
        · rw [if_pos hb]
          have hL : (Except.error () >>= fun d' =>
              List.foldlM (fun d net =>
                (find_elements "node" net).foldlM
                  (pinNodeStep (orEmpty (get_element_value net "name"))) d) d' nets) =
              (Except.error () :
                Except Unit (List ((String × String) × (Sexp × Sexp)))) := rfl
          rw [hL, List.any_cons, hb]
          simp
        · rw [if_neg hb]
          have hok : ∀ (x : List ((String × String) × (Sexp × Sexp))),
              (Except.ok x >>= fun d' =>
                List.foldlM (fun d net =>
                  (find_elements "node" net).foldlM
                    (pinNodeStep (orEmpty (get_element_value net "name"))) d) d' nets) =
              List.foldlM (fun d net =>
                (find_elements "node" net).foldlM
                  (pinNodeStep (orEmpty (get_element_value net "name"))) d) x nets :=
            fun _ => rfl
          rw [hok, ih, List.any_cons, List.flatMap_cons, List.foldl_append]
          simp [hb]
    exact main (find_elements "net" nets_section) []

/-- A per-pin record of the net-to-pins index
(`{'reference': ref, 'pin_number': pin, 'pin_name': pinfunction}`). -/
structure NetRec where
  reference : Sexp
  pin_number : Sexp
  pin_name : Sexp

/-- The record a node contributes to a net's pin list in
`build_net_pins_index`: `ref` and `pin` present and truthy (no hashing
happens here, so list values are carried through as Python does). -/
def netNodeRec? (node : Sexp) : Option NetRec :=
  match get_element_value node "ref", get_element_value node "pin" with
  | some rv, some pv =>
    if truthy rv && truthy pv then
      some ⟨rv, pv, orEmpty (get_element_value node "pinfunction")⟩
    else none
  | _, _ => none

/-- The name of a `net` element (`get_element_value(net, 'name') or ''`). -/
def netName (net : Sexp) : Sexp := orEmpty (get_element_value net "name")

/-- The document-order pin records of a `net` element. -/
def netPins (net : Sexp) : List NetRec :=
  (find_elements "node" net).filterMap netNodeRec?

/-- One step of the net loop of `build_net_pins_index`: a net with a nonempty
pin list is assigned under its name; hashing a truthy list-valued name raises
`TypeError` (modelled as `Except.error`); a net with no pins is skipped. -/
def netStep (d : List (String × List NetRec)) (net : Sexp) :
    Except Unit (List (String × List NetRec)) :=
  let pins := netPins net
  if pins.isEmpty then .ok d
  else
    match netName net with
    | .atom ns => .ok (dictInsert d ns pins)
    | .list _ => .error ()

/-- `build_net_pins_index(netlist_sexp)`: map net name to the list of pins
connected to it, over every `net` of the first `nets` section. -/
def build_net_pins_index (netlist_sexp : Sexp) :
    Except Unit (List (String × List NetRec)) :=
  match find_elements "nets" netlist_sexp with
  | [] => .ok []
  | nets_section :: _ =>
    (find_elements "net" nets_section).foldlM netStep []

/-- The entry a net contributes to the net-to-pins index, when it contributes
one: a nonempty pin list under an atom name. -/
def netEntry? (net : Sexp) : Option (String × List NetRec) :=
  match netName net with
  | .atom ns => if (netPins net).isEmpty then none else some (ns, netPins net)
  | .list _ => none

/-- Does a net make `build_net_pins_index` raise: nonempty pins under a
(truthy) list-valued name. -/
def netBad (net : Sexp) : Bool :=
  match netName net with
  | .atom _ => false
  | .list _ => !(netPins net).isEmpty

theorem netStep_eq (d : List (String × List NetRec)) (net : Sexp) :
    netStep d net =
      if netBad net then .error ()
      else .ok (match netEntry? net with
                | some e => dictInsert d e.1 e.2
                | none => d) := by
  unfold netStep netBad netEntry?
  cases hn : netName net with
  | atom ns => by_cases hp : (netPins net).isEmpty <;> simp [hp]
  | list xs => by_cases hp : (netPins net).isEmpty <;> simp [hp]

theorem netStep_foldlM (nets : List Sexp) (d : List (String × List NetRec)) :
    nets.foldlM netStep d =
      if nets.any netBad then .error ()
      else .ok ((nets.filterMap netEntry?).foldl
                  (fun d e => dictInsert d e.1 e.2) d) := by
  induction nets generalizing d with
  | nil => rfl
  | cons net nets ih =>
    rw [List.foldlM_cons, netStep_eq]
    by_cases hb : netBad net = true
    · rw [if_pos hb]
      have hL : (Except.error () >>= fun d' => List.foldlM netStep d' nets) =
          (Except.error () : Except Unit (List (String × List NetRec))) := rfl
      rw [hL, List.any_cons, hb]
      simp
    · rw [if_neg hb, List.any_cons, List.filterMap_cons]
      have hok : ∀ (x : List (String × List NetRec)),
          (Except.ok x >>= fun d' => List.foldlM netStep d' nets)
            = List.foldlM netStep x nets := fun _ => rfl
      cases he : netEntry? net with
      | none =>
        rw [hok, ih]
        simp [hb]
      | some e =>
        rw [hok, ih]
        simp [hb]

/-- The net entries of the first `nets` section, in document order. -/
def net_entries (netlist_sexp : Sexp) : List (String × List NetRec) :=
  match find_elements "nets" netlist_sexp with
  | [] => []
  | nets_section :: _ => (find_elements "net" nets_section).filterMap netEntry?

/-- Does building the net-to-pins index raise a `TypeError` somewhere. -/
def net_bad (netlist_sexp : Sexp) : Bool :=
  match find_elements "nets" netlist_sexp with
  | [] => false
  | nets_section :: _ => (find_elements "net" nets_section).any netBad

theorem build_net_pins_index_eq (t : Sexp) :
    build_net_pins_index t =
      if net_bad t then .error ()
      else .ok ((net_entries t).foldl (fun d e => dictInsert d e.1 e.2) []) := by
  unfold build_net_pins_index net_bad net_entries
  cases hs : find_elements "nets" t with
  | nil => simp
  | cons nets_section rest => exact netStep_foldlM (find_elements "net" nets_section) []

/-- Python `set.add` on the deduplicated-list rendering of a set of strings
(membership is all the caller observes). -/
def pySetAdd (s : List String) (x : String) : List String :=
  if x ∈ s then s else s ++ [x]

/-- One step of the comp loop of `get_component_refs`: a truthy atom `ref` is
added to the set; adding a truthy list value raises `TypeError` (set members
must be hashable); falsy or absent values are skipped. -/
def compStep (refs : List String) (comp : Sexp) : Except Unit (List String) :=
  match get_element_value comp "ref" with
  | some (.atom s) => if s = "" then .ok refs else .ok (pySetAdd refs s)
  | some (.list xs) => if xs.isEmpty then .ok refs else .error ()
  | none => .ok refs

/-- `get_component_refs(netlist_sexp)`: the set of `ref` values of the `comp`
elements of the first `components` section. -/
def get_component_refs (netlist_sexp : Sexp) : Except Unit (List String) :=
  match find_elements "components" netlist_sexp with
  | [] => .ok []
  | components_section :: _ =>
    (find_elements "comp" components_section).foldlM compStep []

/-- The (truthy atom) `ref` value a comp contributes to the reference set. -/
def compRef? (comp : Sexp) : Option String :=
  match get_element_value comp "ref" with
  | some (.atom s) => if s = "" then none else some s
  | _ => none

/-- Does a comp make `get_component_refs` raise: a truthy list-valued `ref`. -/
def compBad (comp : Sexp) : Bool :=
  match get_element_value comp "ref" with
  | some (.list xs) => !xs.isEmpty
  | _ => false

/-- The reference strings of the first `components` section, in document
order (with duplicates). -/
def comp_ref_list (netlist_sexp : Sexp) : List String :=
  match find_elements "components" netlist_sexp with
  | [] => []
  | components_section :: _ =>
    (find_elements "comp" components_section).filterMap compRef?

theorem compStep_eq (refs : List String) (comp : Sexp) :
    compStep refs comp =
      if compBad comp then .error ()
      else .ok (match compRef? comp with
                | some r => pySetAdd refs r
                | none => refs) := by
  unfold compStep compBad compRef?
  cases h : get_element_value comp "ref" with
  | none => simp
  | some v =>
    cases v with
    | atom s => by_cases hs : s = "" <;> simp [hs]
    | list xs => by_cases hx : xs.isEmpty <;> simp [hx]

theorem compStep_foldlM (comps : List Sexp) (refs : List String) :
    comps.foldlM compStep refs =
      if comps.any compBad then .error ()
      else .ok ((comps.filterMap compRef?).foldl pySetAdd refs) := by
  induction comps generalizing refs with
  | nil => rfl
  | cons comp comps ih =>
    rw [List.foldlM_cons, compStep_eq]
    by_cases hb : compBad comp = true
    · rw [if_pos hb]
      have hL : (Except.error () >>= fun r => List.foldlM compStep r comps) =
          (Except.error () : Except Unit (List String)) := rfl
      rw [hL, List.any_cons, hb]
      simp
    · rw [if_neg hb, List.any_cons, List.filterMap_cons]
      have hok : ∀ (x : List String),
          (Except.ok x >>= fun r => List.foldlM compStep r comps)
            = List.foldlM compStep x comps := fun _ => rfl
      cases he : compRef? comp with
      | none =>
        rw [hok, ih]
        simp [hb]
      | some r =>
        rw [hok, ih]
        simp [hb]

theorem mem_foldl_pySetAdd (rs : List String) (init : List String) (x : String) :
    x ∈ rs.foldl pySetAdd init ↔ (x ∈ init ∨ x ∈ rs) := by
  induction rs generalizing init with
  | nil => simp
  | cons r rs ih =>
    rw [List.foldl_cons, ih]
    unfold pySetAdd
    by_cases h : r ∈ init
    · simp only [if_pos h]
      constructor
      · rintro (hi | hr)
        · exact Or.inl hi
        · exact Or.inr (List.mem_cons_of_mem r hr)
      · rintro (hi | hr)
        · exact Or.inl hi
        · rcases List.mem_cons.mp hr with rfl | hr'
          · exact Or.inl h
          · exact Or.inr hr'
    · simp only [if_neg h, List.mem_append, List.mem_singleton, List.mem_cons]
      tauto

theorem nodup_foldl_pySetAdd (rs : List String) (init : List String)
    (h : init.Nodup) : (rs.foldl pySetAdd init).Nodup := by
  induction rs generalizing init with
  | nil => exact h
  | cons r rs ih =>
    rw [List.foldl_cons]
    apply ih
    unfold pySetAdd
    by_cases hm : r ∈ init
    · simpa [hm] using h
    · rw [if_neg hm]
      simp [List.nodup_append, h, hm]

/-- Membership in the reference set: exactly the truthy atom `ref` values of
the comps of the first `components` section. -/
theorem get_component_refs_mem (t : Sexp) (refs : List String)
    (hok : get_component_refs t = .ok refs) (x : String) :
    x ∈ refs ↔ x ∈ comp_ref_list t := by
  unfold get_component_refs at hok
  unfold comp_ref_list
  cases hs : find_elements "components" t with
  | nil =>
    rw [hs] at hok
    cases hok
    simp
  | cons components_section rest =>
    rw [hs] at hok
    change List.foldlM compStep [] (find_elements "comp" components_section) =
      Except.ok refs at hok
    rw [compStep_foldlM] at hok
    show x ∈ refs ↔ x ∈ List.filterMap compRef? (find_elements "comp" components_section)
    by_cases hb : (find_elements "comp" components_section).any compBad = true
    · rw [if_pos hb] at hok
      cases hok
    · rw [if_neg hb] at hok
      cases hok
      rw [mem_foldl_pySetAdd]
      simp

/-- The reference set has no duplicates (it models a Python `set`). -/
theorem get_component_refs_nodup (t : Sexp) (refs : List String)
    (hok : get_component_refs t = .ok refs) : refs.Nodup := by
  unfold get_component_refs at hok
  cases hs : find_elements "components" t with
  | nil =>
    rw [hs] at hok
    cases hok
    exact List.nodup_nil
  | cons components_section rest =>
    rw [hs] at hok
    change List.foldlM compStep [] (find_elements "comp" components_section) =
      Except.ok refs at hok
    rw [compStep_foldlM] at hok
    by_cases hb : (find_elements "comp" components_section).any compBad = true
    · rw [if_pos hb] at hok
      cases hok
    · rw [if_neg hb] at hok
      cases hok
      exact nodup_foldl_pySetAdd _ _ List.nodup_nil

/-! ## Query resolvers (`get_component_pin_nets`, `get_net_pins`) -/

/-- An output record of the by-reference query
(`{'pin_number': ..., 'pin_name': ..., 'net': ...}`).  The pin number is a
string because it was part of a hashed index key; the other two fields are
carried through from the parse. -/
structure PinRec where
  pin_number : String
  pin_name : Sexp
  net : Sexp

/-- Outcome of the by-reference query: an uncaught exception, the
`{'error': 'Component ... not found in project'}` result, or the
`{'reference': ..., 'pins': [...]}` result. -/
inductive RefResult where
  | raised
  | notFound (ref : String)
  | ok (reference : String) (pins : List PinRec)

/-- `pin_sort_key(p)` as an ordering: key `(0, int(pin_number))` when the pin
number parses as an integer, `(1, pin_number)` otherwise; Python compares the
tuples lexicographically, so every numeric key precedes every non-numeric
key, numeric keys compare by value, and non-numeric keys compare as
strings.  Equal keys are left in their pre-sort order by sort stability. -/
def pinLe (p q : PinRec) : Bool :=
  match pyInt p.pin_number, pyInt q.pin_number with
  | some m, some n => decide (m ≤ n)
  | some _, none => true
  | none, some _ => false
  | none, none => strLe p.pin_number q.pin_number

/-- The part of `get_component_pin_nets(project_dir, ref)` that runs on the
parsed netlist tree (after schematic discovery, netlist export and parsing):
check the reference against the component set, filter the pin index, and sort
the records by pin number. -/
def get_component_pin_nets_core (netlist_sexp : Sexp) (ref : String) : RefResult :=
  match get_component_refs netlist_sexp with
  | .error _ => .raised
  | .ok all_refs =>
    if ref ∈ all_refs then
      match build_pin_net_index netlist_sexp with
      | .error _ => .raised
      | .ok pin_index =>
        let pins := (pin_index.filter (fun e => e.1.1 = ref)).map
          (fun e => PinRec.mk e.1.2 e.2.1 e.2.2)
        .ok ref (pySort pinLe pins)
    else .notFound ref

/-- Outcome of the by-net query: an uncaught exception, the not-found error,
the ambiguity error with the sorted candidate list, or the resolved
`{'net': ..., 'pins': [...]}` result. -/
inductive NetResult where
  | raised
  | notFound (net : String)
  | ambiguous (net : String) (candidates : List String)
  | ok (net : String) (pins : List NetRec)

/-- All alphabetic characters of the reference, in order
(`''.join(c for c in ref if c.isalpha())`). -/
def refAlpha (s : String) : String := String.mk (s.toList.filter pyIsAlpha)

/-- All digit characters of the reference parsed as an integer, 0 when there
are none (`int(num_str) if num_str else 0`). -/
def refNum (s : String) : Int :=
  let ds := s.toList.filter pyIsDigit
  if ds.isEmpty then 0 else (digitsVal ds : Int)

/-- Lexicographic comparison of `(string, integer, string)` sort-key
triples, as Python compares the key tuples. -/
def tripleLexLe (a b : String × Int × String) : Bool :=
  if a.1 ≠ b.1 then strLe a.1 b.1
  else if a.2.1 ≠ b.2.1 then decide (a.2.1 < b.2.1)
  else strLe a.2.2 b.2.2

/-- The composite reference ordering of `get_net_pins`'s `pin_sort_key`, on
records with string fields: `(refAlpha reference, refNum reference,
pin_number)` compared lexicographically. -/
def netRecLe (p q : NetRec) : Bool :=
  match p.reference, p.pin_number, q.reference, q.pin_number with
  | .atom pr, .atom pp, .atom qr, .atom qp =>
    tripleLexLe (refAlpha pr, refNum pr, pp) (refAlpha qr, refNum qr, qp)
  | _, _, _, _ => false

/-- Sorting a resolved net's pin list.  On records whose `reference` and
`pin_number` are strings this is Python's stable sort by the composite key;
for non-string fields Python's key computation or tuple comparison can raise
(`AttributeError`/`TypeError`), modelled conservatively as `none`. -/
def sortNetRecs (pins : List NetRec) : Option (List NetRec) :=
  if pins.all (fun p => match p.reference, p.pin_number with
               | .atom _, .atom _ => true
               | _, _ => false) then
    some (pySort netRecLe pins)
  else none

/-- The case-insensitive match test of `get_net_pins`: the lowercased name
equals the lowercased query, or contains it as a substring. -/
def netNameMatches (query name : String) : Bool :=
  pyLower name = pyLower query ||
    strContains (pyLower name).toList (pyLower query).toList

/-- The matching and resolution logic of `get_net_pins` (lines after the
index is built), as a function of the net-to-pins index: exact lookup first;
otherwise collect every case-insensitively matching name; zero matches is the
not-found error, one match resolves it, several give the ambiguity error with
the sorted candidates. -/
def resolve_net_query (net_index : List (String × List NetRec))
    (net_name : String) : NetResult :=
  match dictFind? net_name net_index with
  | some pins =>
    match sortNetRecs pins with
    | some sorted => .ok net_name sorted
    | none => .raised
  | none =>
    match (net_index.map Prod.fst).filter (netNameMatches net_name) with
    | [] => .notFound net_name
    | [m] =>
      match dictFind? m net_index with
      | some pins =>
        match sortNetRecs pins with
        | some sorted => .ok m sorted
        | none => .raised
      | none => .raised
    | ms => .ambiguous net_name (pySort strLe ms)

/-- The part of `get_net_pins(project_dir, net_name)` that runs on the parsed
netlist tree: build the net-to-pins index and resolve the query against it. -/
def get_net_pins_core (netlist_sexp : Sexp) (net_name : String) : NetResult :=
  match build_net_pins_index netlist_sexp with
  | .error _ => .raised
  | .ok net_index => resolve_net_query net_index net_name

/-- The pin ordering as claim C4 states it: ties among numeric pins broken by
the original pin-number string (this is the claim's wording, not the code's
key, which carries no string tie-breaker for numeric pins). -/
def specPinLe (p q : PinRec) : Bool :=
  match pyInt p.pin_number, pyInt q.pin_number with
  | some m, some n =>
    if m ≠ n then decide (m < n) else strLe p.pin_number q.pin_number
  | some _, none => true
  | none, some _ => false
  | none, none => strLe p.pin_number q.pin_number

/-- The leading alphabetic characters of a string (claim C5's "alphabetic
prefix of the reference (all leading letters)"). -/
def leadAlpha (s : String) : String := String.mk (s.toList.takeWhile pyIsAlpha)

/-- The reference ordering as claim C5 states it: first component the
*leading* letters of the reference (the code instead filters every alphabetic
character of the reference). -/
def specNetRecLe (p q : NetRec) : Bool :=
  match p.reference, p.pin_number, q.reference, q.pin_number with
  | .atom pr, .atom pp, .atom qr, .atom qp =>
    tripleLexLe (leadAlpha pr, refNum pr, pp) (leadAlpha qr, refNum qr, qp)
  | _, _, _, _ => false

/-! ## Order lemmas for the sort keys -/

theorem strLe_total (a b : String) : strLe a b || strLe b a :=
  lexLe_total a.toList b.toList

theorem strLe_trans (a b c : String) (h1 : strLe a b = true)
    (h2 : strLe b c = true) : strLe a c = true :=
  lexLe_trans a.toList b.toList c.toList h1 h2

theorem strLe_antisymm (a b : String) (h1 : strLe a b = true)
    (h2 : strLe b a = true) : a = b := by
  have h := lexLe_antisymm a.toList b.toList h1 h2
  cases a
  cases b
  exact congrArg String.mk h

theorem tripleLexLe_total (a b : String × Int × String) :
    tripleLexLe a b || tripleLexLe b a := by
  obtain ⟨a1, a2, a3⟩ := a
  obtain ⟨b1, b2, b3⟩ := b
  unfold tripleLexLe
  by_cases h1 : a1 = b1
  · subst h1
    simp only [if_neg (show ¬ a1 ≠ a1 by simp)]
    by_cases h2 : a2 = b2
    · subst h2
      simp only [if_neg (show ¬ a2 ≠ a2 by simp)]
      exact strLe_total a3 b3
    · simp only [if_pos h2, if_pos (Ne.symm h2)]
      by_cases hl : a2 < b2
      · simp [hl]
      · simp only [Bool.or_eq_true, decide_eq_true_eq]
        right
        omega
  · simp only [if_pos h1, if_pos (Ne.symm h1)]
    exact strLe_total a1 b1

theorem tripleLexLe_trans (a b c : String × Int × String)
    (h1 : tripleLexLe a b = true) (h2 : tripleLexLe b c = true) :
    tripleLexLe a c = true := by
  obtain ⟨a1, a2, a3⟩ := a
  obtain ⟨b1, b2, b3⟩ := b
  obtain ⟨c1, c2, c3⟩ := c
  unfold tripleLexLe at h1 h2 ⊢
  by_cases e1 : a1 = b1 <;> by_cases e2 : b1 = c1
  · subst e1
    subst e2
    simp only [if_neg (show ¬ a1 ≠ a1 by simp)] at h1 h2 ⊢
    by_cases f1 : a2 = b2 <;> by_cases f2 : b2 = c2
    · subst f1
      subst f2
      simp only [if_neg (show ¬ a2 ≠ a2 by simp)] at h1 h2 ⊢
      exact strLe_trans a3 b3 c3 h1 h2
    · subst f1
      simp only [if_pos f2] at h2 ⊢
      exact h2
    · subst f2
      simp only [if_pos f1] at h1 ⊢
      exact h1
    · simp only [if_pos f1, decide_eq_true_eq] at h1
      simp only [if_pos f2, decide_eq_true_eq] at h2
      have f3 : ¬ a2 = c2 := by omega
      simp only [if_pos f3, decide_eq_true_eq]
      omega
  · subst e1
    simp only [if_pos e2] at h2 ⊢
    exact h2
  · subst e2
    simp only [if_pos e1] at h1 ⊢
    exact h1
  · simp only [if_pos e1] at h1
    simp only [if_pos e2] at h2
    have e3 : ¬ a1 = c1 := by
      intro he
      subst he
      exact e1 (strLe_antisymm a1 b1 h1 h2)
    simp only [if_pos e3]
    exact strLe_trans a1 b1 c1 h1 h2

theorem pyIns_sorted_of {α : Type} (le : α → α → Bool) (x : α) (l : List α)
    (htot : ∀ b ∈ l, le x b || le b x)
    (htrans : ∀ e ∈ l, ∀ b ∈ l, le x e = true → le e b = true → le x b = true)
    (hs : l.Pairwise (fun a b => le a b = true)) :
    (pyIns le x l).Pairwise (fun a b => le a b = true) := by
  induction l with
  | nil => simp [pyIns]
  | cons e t ih =>
    rw [List.pairwise_cons] at hs
    by_cases h : le x e = true
    · simp only [pyIns, if_pos h]
      rw [List.pairwise_cons]
      refine ⟨?_, List.Pairwise.cons hs.1 hs.2⟩
      intro b hb
      rcases List.mem_cons.mp hb with hbe | hbt
      · rw [hbe]
        exact h
      · exact htrans e (by simp) b (by simp [hbt]) h (hs.1 b hbt)
    · simp only [pyIns]
      rw [if_neg h, List.pairwise_cons]
      refine ⟨?_, ih (fun b hb => htot b (by simp [hb]))
          (fun e' he' b hb hxe heb =>
            htrans e' (by simp [he']) b (by simp [hb]) hxe heb) hs.2⟩
      intro b hb
      have hm := (pyIns_perm le x t).mem_iff.mp hb
      rcases List.mem_cons.mp hm with hbx | hbt
      · rw [hbx]
        have hd := htot e (by simp)
        simp [h] at hd
        exact hd
      · exact hs.1 b hbt

theorem pySort_sorted_of {α : Type} (le : α → α → Bool) (l : List α)
    (htot : ∀ a ∈ l, ∀ b ∈ l, le a b || le b a)
    (htrans : ∀ a ∈ l, ∀ b ∈ l, ∀ c ∈ l,
      le a b = true → le b c = true → le a c = true) :
    (pySort le l).Pairwise (fun a b => le a b = true) := by
  induction l with
  | nil => simp [pySort]
  | cons x t ih =>
    simp only [pySort]
    have hperm := pySort_perm le t
    apply pyIns_sorted_of
    · intro b hb
      exact htot x (by simp) b (by simp [hperm.mem_iff.mp hb])
    · intro e he b hb hxe heb
      exact htrans x (by simp) e (by simp [hperm.mem_iff.mp he])
        b (by simp [hperm.mem_iff.mp hb]) hxe heb
    · exact ih (fun a ha b hb => htot a (by simp [ha]) b (by simp [hb]))
        (fun a ha b hb c hc =>
          htrans a (by simp [ha]) b (by simp [hb]) c (by simp [hc]))

theorem pinLe_total (p q : PinRec) : pinLe p q || pinLe q p := by
  unfold pinLe
  cases hp : pyInt p.pin_number <;> cases hq : pyInt q.pin_number
  · exact strLe_total _ _
  · simp
  · simp
  · simp only [Bool.or_eq_true, decide_eq_true_eq]
    omega

theorem pinLe_trans (p q r : PinRec) (h1 : pinLe p q = true)
    (h2 : pinLe q r = true) : pinLe p r = true := by
  unfold pinLe at h1 h2 ⊢
  cases hp : pyInt p.pin_number <;> cases hq : pyInt q.pin_number <;>
    cases hr : pyInt r.pin_number <;> simp_all <;>
    first
      | omega
      | exact strLe_trans _ _ _ h1 h2

/-- Are the sortable fields of a record strings (atoms). -/
def netRecAtomic (p : NetRec) : Bool :=
  match p.reference, p.pin_number with
  | .atom _, .atom _ => true
  | _, _ => false

theorem netRecLe_total_at (p q : NetRec) (hp : netRecAtomic p = true)
    (hq : netRecAtomic q = true) : netRecLe p q || netRecLe q p := by
  obtain ⟨pr, pp, pn⟩ := p
  obtain ⟨qr, qp, qn⟩ := q
  cases pr <;> cases pp <;> cases qr <;> cases qp <;>
    simp_all [netRecAtomic, netRecLe]
  simpa using tripleLexLe_total _ _

theorem netRecLe_trans_at (p q r : NetRec) (hp : netRecAtomic p = true)
    (hq : netRecAtomic q = true) (hr : netRecAtomic r = true)
    (h1 : netRecLe p q = true) (h2 : netRecLe q r = true) :
    netRecLe p r = true := by
  obtain ⟨pr, pp, pn⟩ := p
  obtain ⟨qr, qp, qn⟩ := q
  obtain ⟨rr, rp, rn⟩ := r
  cases pr <;> cases pp <;> cases qr <;> cases qp <;> cases rr <;> cases rp <;>
    simp_all [netRecAtomic, netRecLe]
  exact tripleLexLe_trans _ _ _ h1 h2

theorem sortNetRecs_some (pins sorted : List NetRec)
    (h : sortNetRecs pins = some sorted) :
    sorted = pySort netRecLe pins ∧ ∀ p ∈ pins, netRecAtomic p = true := by
  unfold sortNetRecs at h
  by_cases ha : pins.all (fun p => match p.reference, p.pin_number with
      | .atom _, .atom _ => true
      | _, _ => false) = true
  · rw [if_pos ha] at h
    cases h
    refine ⟨rfl, ?_⟩
    intro p hp
    have := List.all_eq_true.mp ha p hp
    obtain ⟨pr, pp, pn⟩ := p
    cases pr <;> cases pp <;> simp_all [netRecAtomic]
  · rw [if_neg ha] at h
    cases h

theorem sortNetRecs_sorted (pins sorted : List NetRec)
    (h : sortNetRecs pins = some sorted) :
    sorted.Pairwise (fun a b => netRecLe a b = true) ∧ List.Perm sorted pins := by
  obtain ⟨hq, hat⟩ := sortNetRecs_some pins sorted h
  subst hq
  refine ⟨?_, pySort_perm _ _⟩
  exact pySort_sorted_of netRecLe pins
    (fun a ha b hb => netRecLe_total_at a b (hat a ha) (hat b hb))
    (fun a ha b hb c hc => netRecLe_trans_at a b c (hat a ha) (hat b hb) (hat c hc))

/-! ## Supporting lemmas for the claims -/

theorem tokenizeAuxF_all_space (fuel : Nat) (l : List Char)
    (h : l.all pyIsSpace = true) : tokenizeAuxF fuel l = [] := by
  induction fuel generalizing l with
  | zero => cases l <;> rfl
  | succ fuel ih =>
    cases l with
    | nil => rfl
    | cons c rest =>
      rw [List.all_cons, Bool.and_eq_true] at h
      simp only [tokenizeAuxF, if_pos h.1]
      exact ih rest h.2

theorem scanQuoted_no_quote (l : List Char) (h : '"' ∉ l) :
    scanQuoted l = (l, []) := by
  induction l using scanQuoted.induct with
  | case1 => rfl
  | case2 => rfl
  | case3 d rest ih =>
    rw [List.mem_cons, List.mem_cons] at h
    push_neg at h
    rw [scanQuoted, ih h.2.2]
  | case4 rest => exact absurd (List.mem_cons_self _ _) h
  | case5 c rest hn1 hn2 hn3 ih =>
    rw [List.mem_cons] at h
    push_neg at h
    have hc1 : c ≠ '\\' := by
      intro hc
      cases rest with
      | nil => exact hn1 hc rfl
      | cons d r => exact hn2 d r hc rfl
    have hc2 : ¬ c = '"' := fun hc => hn3 hc
    have hr := ih h.2
    simp_all [scanQuoted]

theorem mem_dictInsert {K V : Type} [DecidableEq K]
    (d : List (K × V)) (k : K) (v : V) (p : K × V)
    (h : p ∈ dictInsert d k v) : p = (k, v) ∨ p ∈ d := by
  induction d with
  | nil => simpa [dictInsert] using h
  | cons e rest ih =>
    unfold dictInsert at h
    by_cases he : e.1 = k
    · rw [if_pos he] at h
      rcases List.mem_cons.mp h with hp | hp
      · exact Or.inl hp
      · exact Or.inr (List.mem_cons_of_mem e hp)
    · rw [if_neg he] at h
      rcases List.mem_cons.mp h with hp | hp
      · exact Or.inr (by simp [hp])
      · rcases ih hp with hp' | hp'
        · exact Or.inl hp'
        · exact Or.inr (List.mem_cons_of_mem e hp')

theorem mem_foldl_dictInsert {K V : Type} [DecidableEq K]
    (entries : List (K × V)) (init : List (K × V)) (p : K × V)
    (h : p ∈ entries.foldl (fun d e => dictInsert d e.1 e.2) init) :
    p ∈ init ∨ p ∈ entries := by
  induction entries generalizing init with
  | nil => exact Or.inl h
  | cons e es ih =>
    rw [List.foldl_cons] at h
    rcases ih _ h with hp | hp
    · rcases mem_dictInsert _ _ _ _ hp with hp' | hp'
      · exact Or.inr (by simp [hp'])
      · exact Or.inl hp'
    · exact Or.inr (List.mem_cons_of_mem e hp)

theorem tokenize_quoted (cs : List Char) :
    tokenize_sexp (String.mk ('"' :: cs)) =
      String.mk ('"' :: (scanQuoted cs).1) ::
        tokenize_sexp (String.mk (scanQuoted cs).2) := by
  show tokenizeAuxF ((String.mk ('"' :: cs)).toList.length + 1) ('"' :: cs) = _
  have hlen : (String.mk ('"' :: cs)).toList.length + 1 = (cs.length + 1) + 1 := by
    simp [String.toList]
  rw [hlen]
  show String.mk ('"' :: (scanQuoted cs).1) ::
      tokenizeAuxF (cs.length + 1) (scanQuoted cs).2 = _
  refine congrArg (fun t => String.mk ('"' :: (scanQuoted cs).1) :: t) ?_
  exact tokenizeAuxF_fuel_irrelevant _ _ _
    (Nat.lt_succ_of_le (scanQuoted_rest_length cs))
    (by simp [String.toList])

/-! ## Concrete example inputs used by the claims -/

/-- `(nets (net (name "GND") (node (ref "R1") (pin "1") (pinfunction "A"))))`,
as parsed (quotes already unwrapped). -/
def exNetsTree : Sexp :=
  .list [.atom "nets",
    .list [.atom "net", .list [.atom "name", .atom "GND"],
      .list [.atom "node", .list [.atom "ref", .atom "R1"],
        .list [.atom "pin", .atom "1"], .list [.atom "pinfunction", .atom "A"]]]]

/-- A netlist where component `R1` has the numerically-tied pins `"1"` and
then `"01"` (both parse to the integer 1) on net `N`. -/
def exTieTree : Sexp :=
  .list [.atom "export",
    .list [.atom "components",
      .list [.atom "comp", .list [.atom "ref", .atom "R1"]]],
    .list [.atom "nets",
      .list [.atom "net", .list [.atom "name", .atom "N"],
        .list [.atom "node", .list [.atom "ref", .atom "R1"],
          .list [.atom "pin", .atom "1"]],
        .list [.atom "node", .list [.atom "ref", .atom "R1"],
          .list [.atom "pin", .atom "01"]]]]]

/-- A netlist where component `U1` has pins `"10"`, `"2"`, `"A1"` on net `N`. -/
def exNumericTree : Sexp :=
  .list [.atom "export",
    .list [.atom "components",
      .list [.atom "comp", .list [.atom "ref", .atom "U1"]]],
    .list [.atom "nets",
      .list [.atom "net", .list [.atom "name", .atom "N"],
        .list [.atom "node", .list [.atom "ref", .atom "U1"],
          .list [.atom "pin", .atom "10"]],
        .list [.atom "node", .list [.atom "ref", .atom "U1"],
          .list [.atom "pin", .atom "2"]],
        .list [.atom "node", .list [.atom "ref", .atom "U1"],
          .list [.atom "pin", .atom "A1"]]]]]

/-- A netlist whose net `N` connects references `AA1` and `A1B`: their
all-letters keys are `"AA" < "AB"`, but their leading-letters keys are
`"AA" > "A"`, so the two candidate sort keys disagree. -/
def exLeadTree : Sexp :=
  .list [.atom "nets",
    .list [.atom "net", .list [.atom "name", .atom "N"],
      .list [.atom "node", .list [.atom "ref", .atom "AA1"],
        .list [.atom "pin", .atom "1"]],
      .list [.atom "node", .list [.atom "ref", .atom "A1B"],
        .list [.atom "pin", .atom "1"]]]]

/-- A netlist whose net `M` connects `C10`, `C1` and `R1` in that document
order. -/
def exCNumTree : Sexp :=
  .list [.atom "nets",
    .list [.atom "net", .list [.atom "name", .atom "M"],
      .list [.atom "node", .list [.atom "ref", .atom "C10"],
        .list [.atom "pin", .atom "1"]],
      .list [.atom "node", .list [.atom "ref", .atom "C1"],
        .list [.atom "pin", .atom "1"]],
      .list [.atom "node", .list [.atom "ref", .atom "R1"],
        .list [.atom "pin", .atom "1"]]]]

/-- A netlist whose only comp carries the list-valued ref `(x)`:
`(export (components (comp (ref (x)))))`. -/
def exBadRefTree : Sexp :=
  .list [.atom "export",
    .list [.atom "components",
      .list [.atom "comp", .list [.atom "ref", .list [.atom "x"]]]]]

/-- A netlist declaring component `R1` and no `nets` section. -/
def exNoNetsTree : Sexp :=
  .list [.atom "export",
    .list [.atom "components",
      .list [.atom "comp", .list [.atom "ref", .atom "R1"]]]]

/-- A net-to-pins index holding the nets `SCL` and `SCL2`. -/
def exSclIndex : List (String × List NetRec) :=
  [("SCL", [⟨.atom "R1", .atom "1", .atom ""⟩]),
   ("SCL2", [⟨.atom "R2", .atom "1", .atom ""⟩])]

/-! ## The claims -/

/-- C1: the tokenizer and parser are total functions (the model never
fails); a top-level parse of an empty or whitespace-only input yields `none`
(an absent tree); malformed input degrades to a partial tree rather than
raising, witnessed by the unbalanced input `"(a (b"` parsing to the partial
tree `(a (b))`. -/
theorem claim_C1_parse_total :
    (∀ text : String, text.toList.all pyIsSpace = true →
      parse_sexp_string text = none) ∧
    parse_sexp_string "" = none ∧
    parse_sexp_string "(a (b" = some (.list [.atom "a", .list [.atom "b"]]) := by
  refine ⟨?_, rfl, rfl⟩
  intro text hws
  unfold parse_sexp_string parse_sexp
  rw [show tokenize_sexp text = [] from tokenizeAuxF_all_space _ _ hws]
  rfl

/-- Witness for C1 at the whitespace-only input `"  \t\n"`. -/
theorem claim_C1_parse_total_witness :
    ("  \t\n".toList.all pyIsSpace = true) ∧ parse_sexp_string "  \t\n" = none :=
  ⟨by decide, claim_C1_parse_total.1 "  \t\n" (by decide)⟩

/-- C9: `parse_sexp_string` keeps only the first top-level form of the token
stream: an input beginning with the complete form `(a)` parses to that form
whatever follows it (trailing forms are silently discarded), and an input
beginning with an unmatched `)` parses to `none` whatever follows, even a
complete well-formed tree. -/
theorem claim_C9_first_form_only :
    (∀ s : String, parse_sexp_string (")" ++ s) = none) ∧
    (∀ s : String, parse_sexp_string ("(a)" ++ s) = some (.list [.atom "a"])) := by
  constructor
  · intro s
    show (parse_sexp (tokenize_sexp (")" ++ s)) 0).1 = none
    rw [show tokenize_sexp (")" ++ s) =
        ")" :: tokenizeAuxF (s.toList.length + 1) s.toList from rfl]
    generalize tokenizeAuxF (s.toList.length + 1) s.toList = rest
    unfold parse_sexp
    have h : 2 * ((")" :: rest).length) + 2 = (2 * rest.length + 3) + 1 := by
      simp only [List.length_cons]
      omega
    rw [h]
    simp [parseSexpF]
  · intro s
    show (parse_sexp (tokenize_sexp ("(a)" ++ s)) 0).1 = some (.list [.atom "a"])
    rw [show tokenize_sexp ("(a)" ++ s) =
        "(" :: "a" :: ")" :: tokenizeAuxF (s.toList.length + 1) s.toList from rfl]
    generalize tokenizeAuxF (s.toList.length + 1) s.toList = rest
    unfold parse_sexp
    have h : 2 * (("(" :: "a" :: ")" :: rest).length) + 2 =
        (2 * rest.length + 5) + 3 := by
      simp only [List.length_cons]
      omega
    rw [h]
    simp [parseSexpF, parseListF, tokenAtom, isQuotedToken]

/-- C6: quoted-string tokenization: a backslash makes the following character
part of the token (so `\"` and `\\` never terminate it), an unescaped `"`
terminates it, an unterminated quoted string extends to the end of the input,
the token retains its surrounding quotes, and the parser unwraps a quoted
token to its unescaped value; the input `"a\"b"` tokenizes to one quoted
token whose unescaped value is `a"b`. -/
theorem claim_C6_quoted_strings :
    (∀ l : List Char, '"' ∉ l → scanQuoted l = (l, [])) ∧
    (∀ (d : Char) (rest : List Char), scanQuoted ('\\' :: d :: rest) =
      ('\\' :: d :: (scanQuoted rest).1, (scanQuoted rest).2)) ∧
    (∀ rest : List Char, scanQuoted ('"' :: rest) = (['"'], rest)) ∧
    (∀ cs : List Char, tokenize_sexp (String.mk ('"' :: cs)) =
      String.mk ('"' :: (scanQuoted cs).1) ::
        tokenize_sexp (String.mk (scanQuoted cs).2)) ∧
    tokenize_sexp "\"a\\\"b\"" = ["\"a\\\"b\""] ∧
    parse_sexp_string "\"a\\\"b\"" = some (.atom "a\"b") := by
  refine ⟨scanQuoted_no_quote, ?_, ?_, tokenize_quoted, rfl, rfl⟩
  · intro d rest
    rfl
  · intro rest
    rfl

/-- Witness for C6 at the quote-free character list `['a', 'b']`. -/
theorem claim_C6_quoted_strings_witness :
    ('"' ∉ ['a', 'b']) ∧ scanQuoted ['a', 'b'] = (['a', 'b'], []) :=
  ⟨by decide, claim_C6_quoted_strings.1 ['a', 'b'] (by decide)⟩

/-- C2: resolution of a net-name query against the net-to-pins index: an
exact key hit resolves immediately (no ambiguity is possible); on a miss the
matching set is every net whose lowercase name equals or contains the
lowercase query; zero matches give the not-found error, exactly one resolves
to that net's pin list, and two or more give the ambiguity error carrying the
sorted list of the matching names.  With nets `SCL` and `SCL2`, the query
`scl` is ambiguous with matches `["SCL", "SCL2"]` while `SCL2` resolves
directly. -/
theorem claim_C2_net_query_resolution :
    (∀ (idx : List (String × List NetRec)) (q : String)
       (pins sorted : List NetRec),
      dictFind? q idx = some pins → sortNetRecs pins = some sorted →
      resolve_net_query idx q = .ok q sorted ∧ List.Perm sorted pins) ∧
    (∀ (idx : List (String × List NetRec)) (q : String),
      dictFind? q idx = none →
      (idx.map Prod.fst).filter (netNameMatches q) = [] →
      resolve_net_query idx q = .notFound q) ∧
    (∀ (idx : List (String × List NetRec)) (q m : String)
       (pins sorted : List NetRec),
      dictFind? q idx = none →
      (idx.map Prod.fst).filter (netNameMatches q) = [m] →
      dictFind? m idx = some pins → sortNetRecs pins = some sorted →
      resolve_net_query idx q = .ok m sorted ∧ List.Perm sorted pins) ∧
    (∀ (idx : List (String × List NetRec)) (q m1 m2 : String)
       (ms : List String),
      dictFind? q idx = none →
      (idx.map Prod.fst).filter (netNameMatches q) = m1 :: m2 :: ms →
      resolve_net_query idx q =
          .ambiguous q (pySort strLe (m1 :: m2 :: ms)) ∧
        List.Perm (pySort strLe (m1 :: m2 :: ms)) (m1 :: m2 :: ms) ∧
        (pySort strLe (m1 :: m2 :: ms)).Pairwise
          (fun a b => strLe a b = true)) ∧
    resolve_net_query exSclIndex "scl" = .ambiguous "scl" ["SCL", "SCL2"] ∧
    resolve_net_query exSclIndex "SCL2" =
      .ok "SCL2" [⟨.atom "R2", .atom "1", .atom ""⟩] := by
  refine ⟨?_, ?_, ?_, ?_, rfl, rfl⟩
  · intro idx q pins sorted h1 h2
    refine ⟨?_, (sortNetRecs_sorted pins sorted h2).2⟩
    simp only [resolve_net_query, h1, h2]
  · intro idx q h1 h2
    simp only [resolve_net_query, h1, h2]
  · intro idx q m pins sorted h1 h2 h3 h4
    refine ⟨?_, (sortNetRecs_sorted pins sorted h4).2⟩
    simp only [resolve_net_query, h1, h2, h3, h4]
  · intro idx q m1 m2 ms h1 h2
    refine ⟨?_, pySort_perm _ _, pySort_sorted_of strLe _
      (fun a _ b _ => strLe_total a b)
      (fun a _ b _ c _ hab hbc => strLe_trans a b c hab hbc)⟩
    simp only [resolve_net_query, h1, h2]

/-- Witness for C2 at the exact-hit query `SCL2` on the example index. -/
theorem claim_C2_net_query_resolution_witness :
    dictFind? "SCL2" exSclIndex = some [⟨.atom "R2", .atom "1", .atom ""⟩] ∧
    sortNetRecs [(⟨.atom "R2", .atom "1", .atom ""⟩ : NetRec)] =
      some [⟨.atom "R2", .atom "1", .atom ""⟩] ∧
    (resolve_net_query exSclIndex "SCL2" =
        .ok "SCL2" [⟨.atom "R2", .atom "1", .atom ""⟩] ∧
      List.Perm [(⟨.atom "R2", .atom "1", .atom ""⟩ : NetRec)]
        [⟨.atom "R2", .atom "1", .atom ""⟩]) :=
  ⟨rfl, rfl, claim_C2_net_query_resolution.1 exSclIndex "SCL2" _ _ rfl rfl⟩

/-- C3: the pin-to-net index uses only the first `nets` section (none at all
gives an empty index, not an error); lookups return the value of the last
qualifying entry in document order (last-write-wins); every stored entry
comes from a node whose `ref` and `pin` are present (truthy atoms), with
`pinfunction` and `name` defaulting to the empty string through
`orEmpty`. -/
theorem claim_C3_pin_net_index :
    (∀ t : Sexp, find_elements "nets" t = [] → build_pin_net_index t = .ok []) ∧
    (∀ (t : Sexp) (idx : List ((String × String) × (Sexp × Sexp))),
      build_pin_net_index t = .ok idx →
      ∀ k : String × String,
        dictFind? k idx =
          ((pin_entries t).filter (fun e => e.1 = k)).getLast?.map Prod.snd) ∧
    (∀ (t : Sexp) (idx : List ((String × String) × (Sexp × Sexp)))
       (rs ps : String) (v : Sexp × Sexp),
      build_pin_net_index t = .ok idx →
      dictFind? (rs, ps) idx = some v →
      ∃ nets0 tail net node, find_elements "nets" t = nets0 :: tail ∧
        net ∈ find_elements "net" nets0 ∧ node ∈ find_elements "node" net ∧
        get_element_value node "ref" = some (.atom rs) ∧
        get_element_value node "pin" = some (.atom ps) ∧ rs ≠ "" ∧ ps ≠ "" ∧
        v = (orEmpty (get_element_value node "pinfunction"),
             orEmpty (get_element_value net "name"))) ∧
    orEmpty none = Sexp.atom "" := by
  have hlookup : ∀ (t : Sexp) (idx : List ((String × String) × (Sexp × Sexp))),
      build_pin_net_index t = .ok idx →
      ∀ k : String × String,
        dictFind? k idx =
          ((pin_entries t).filter (fun e => e.1 = k)).getLast?.map Prod.snd := by
    intro t idx hok k
    rw [build_pin_net_index_eq] at hok
    by_cases hb : pin_bad t = true
    · rw [if_pos hb] at hok
      cases hok
    · rw [if_neg hb] at hok
      cases hok
      rw [dictFind?_foldl_dictInsert]
      cases hl : ((pin_entries t).filter (fun e => e.1 = k)).getLast? with
      | none => rfl
      | some e => rfl
  refine ⟨?_, hlookup, ?_, rfl⟩
  · intro t h
    unfold build_pin_net_index
    rw [h]
  · intro t idx rs ps v hok hfind
    rw [hlookup t idx hok (rs, ps)] at hfind
    cases hl : ((pin_entries t).filter (fun e => e.1 = (rs, ps))).getLast? with
    | none => rw [hl] at hfind; cases hfind
    | some e =>
      rw [hl] at hfind
      have hev : e.2 = v := by
        simpa using hfind
      have hmem := List.mem_of_getLast?_eq_some hl
      rw [List.mem_filter] at hmem
      obtain ⟨hmem, hkey⟩ := hmem
      have hkey' : e.1 = (rs, ps) := by simpa using hkey
      unfold pin_entries at hmem
      cases hs : find_elements "nets" t with
      | nil => rw [hs] at hmem; cases hmem
      | cons nets0 tail =>
        rw [hs] at hmem
        rw [List.mem_flatMap] at hmem
        obtain ⟨net, hnet, hmem⟩ := hmem
        rw [List.mem_filterMap] at hmem
        obtain ⟨node, hnode, hpe⟩ := hmem
        refine ⟨nets0, tail, net, node, rfl, hnet, hnode, ?_⟩
        unfold pinEntry? at hpe
        cases hr : get_element_value node "ref" with
        | none => rw [hr] at hpe; cases hpe
        | some rv =>
          cases hp : get_element_value node "pin" with
          | none => rw [hr, hp] at hpe; cases rv <;> cases hpe
          | some pv =>
            rw [hr, hp] at hpe
            cases rv with
            | list xs => cases pv <;> cases hpe
            | atom rs' =>
              cases pv with
              | list ys => cases hpe
              | atom ps' =>
                have hpe2 : (if (decide (rs' ≠ "") && decide (ps' ≠ "")) = true
                    then some (((rs', ps') : String × String),
                      (orEmpty (get_element_value node "pinfunction"),
                       orEmpty (get_element_value net "name")))
                    else none) = some e := hpe
                by_cases hrs : rs' = ""
                · rw [if_neg (by simp [hrs])] at hpe2
                  cases hpe2
                · by_cases hps : ps' = ""
                  · rw [if_neg (by simp [hrs, hps])] at hpe2
                    cases hpe2
                  · rw [if_pos (by simp [hrs, hps])] at hpe2
                    cases hpe2
                    simp only [Prod.mk.injEq] at hkey'
                    obtain ⟨hrs1, hps1⟩ := hkey'
                    subst hrs1
                    subst hps1
                    exact ⟨rfl, rfl, hrs, hps, hev.symm⟩

/-- Witness for C3 at the example netlist with one net and one node. -/
theorem claim_C3_pin_net_index_witness :
    build_pin_net_index exNetsTree =
      .ok [(("R1", "1"), (.atom "A", .atom "GND"))] ∧
    dictFind? ("R1", "1") [(("R1", "1"), ((Sexp.atom "A"), (Sexp.atom "GND")))] =
      ((pin_entries exNetsTree).filter
        (fun e => e.1 = ("R1", "1"))).getLast?.map Prod.snd :=
  ⟨rfl, claim_C3_pin_net_index.2.1 exNetsTree _ rfl ("R1", "1")⟩

/-- C7: in the net-to-pins index every stored pin list is nonempty (a net
with no qualifying pins is omitted); lookups return the pin list of the last
nonempty entry for that name in document order; and every stored list is
exactly the document-order pin records of one `net` element of the first
`nets` section. -/
theorem claim_C7_net_pins_index :
    (∀ (t : Sexp) (idx : List (String × List NetRec)),
      build_net_pins_index t = .ok idx → ∀ p ∈ idx, p.2 ≠ []) ∧
    (∀ (t : Sexp) (idx : List (String × List NetRec)),
      build_net_pins_index t = .ok idx →
      ∀ n : String, dictFind? n idx =
        ((net_entries t).filter (fun e => e.1 = n)).getLast?.map Prod.snd) ∧
    (∀ (t : Sexp) (idx : List (String × List NetRec)) (n : String)
       (ps : List NetRec),
      build_net_pins_index t = .ok idx → dictFind? n idx = some ps →
      ∃ nets0 tail net, find_elements "nets" t = nets0 :: tail ∧
        net ∈ find_elements "net" nets0 ∧ netName net = .atom n ∧
        ps = netPins net ∧ ps ≠ []) := by
  have hentry : ∀ (net : Sexp) (e : String × List NetRec),
      netEntry? net = some e →
      netName net = .atom e.1 ∧ e.2 = netPins net ∧ e.2 ≠ [] := by
    intro net e he
    unfold netEntry? at he
    cases hn : netName net with
    | atom ns =>
      rw [hn] at he
      have he2 : (if (netPins net).isEmpty = true then none
          else some ((ns, netPins net) : String × List NetRec)) = some e := he
      by_cases hp : (netPins net).isEmpty
      · rw [if_pos hp] at he2
        cases he2
      · rw [if_neg hp] at he2
        cases he2
        exact ⟨rfl, rfl, by simpa [List.isEmpty_iff] using hp⟩
    | list xs => rw [hn] at he; cases he
  have hlookup : ∀ (t : Sexp) (idx : List (String × List NetRec)),
      build_net_pins_index t = .ok idx →
      ∀ n : String, dictFind? n idx =
        ((net_entries t).filter (fun e => e.1 = n)).getLast?.map Prod.snd := by
    intro t idx hok n
    rw [build_net_pins_index_eq] at hok
    by_cases hb : net_bad t = true
    · rw [if_pos hb] at hok
      cases hok
    · rw [if_neg hb] at hok
      cases hok
      rw [dictFind?_foldl_dictInsert]
      cases hl : ((net_entries t).filter (fun e => e.1 = n)).getLast? with
      | none => rfl
      | some e => rfl
  refine ⟨?_, hlookup, ?_⟩
  · intro t idx hok p hp
    rw [build_net_pins_index_eq] at hok
    by_cases hb : net_bad t = true
    · rw [if_pos hb] at hok
      cases hok
    · rw [if_neg hb] at hok
      cases hok
      rcases mem_foldl_dictInsert _ _ _ hp with hp' | hp'
      · cases hp'
      · unfold net_entries at hp'
        cases hs : find_elements "nets" t with
        | nil => rw [hs] at hp'; cases hp'
        | cons nets0 tail =>
          rw [hs] at hp'
          rw [List.mem_filterMap] at hp'
          obtain ⟨net, _, hne⟩ := hp'
          exact (hentry net p hne).2.2
  · intro t idx n ps hok hfind
    rw [hlookup t idx hok n] at hfind
    cases hl : ((net_entries t).filter (fun e => e.1 = n)).getLast? with
    | none => rw [hl] at hfind; cases hfind
    | some e =>
      rw [hl] at hfind
      have hev : e.2 = ps := by simpa using hfind
      have hmem := List.mem_of_getLast?_eq_some hl
      rw [List.mem_filter] at hmem
      obtain ⟨hmem, hkey⟩ := hmem
      have hkey' : e.1 = n := by simpa using hkey
      unfold net_entries at hmem
      cases hs : find_elements "nets" t with
      | nil => rw [hs] at hmem; cases hmem
      | cons nets0 tail =>
        rw [hs] at hmem
        rw [List.mem_filterMap] at hmem
        obtain ⟨net, hnet, hne⟩ := hmem
        obtain ⟨h1, h2, h3⟩ := hentry net e hne
        refine ⟨nets0, tail, net, rfl, hnet, ?_, ?_, ?_⟩
        · rw [h1, hkey']
        · rw [← hev, h2]
        · rw [← hev]
          exact h3

/-- Witness for C7 at the example netlist with one net and one node. -/
theorem claim_C7_net_pins_index_witness :
    build_net_pins_index exNetsTree =
      .ok [("GND", [⟨.atom "R1", .atom "1", .atom "A"⟩])] ∧
    (∀ p ∈ [("GND", [(⟨.atom "R1", .atom "1", .atom "A"⟩ : NetRec)])],
      p.2 ≠ ([] : List NetRec)) :=
  ⟨rfl, claim_C7_net_pins_index.1 exNetsTree _ rfl⟩

/-- Counterexample to C8 as stated: on a netlist whose only comp carries the
list-valued ref `(x)`, a by-reference query for the absent reference `R9`
raises `TypeError` (hashing the list into the reference set) instead of
returning the not-found error, so "fails with NotFoundError iff the
reference is absent" and "no uncaught exception" do not hold for it. -/
theorem claim_C8_counterexample :
    get_component_pin_nets_core exBadRefTree "R9" = .raised ∧
    get_component_pin_nets_core exBadRefTree "R9" ≠ .notFound "R9" ∧
    get_component_refs exBadRefTree = .error () := by
  refine ⟨rfl, ?_, rfl⟩
  intro h
  rw [show get_component_pin_nets_core exBadRefTree "R9" = RefResult.raised
    from rfl] at h
  cases h

/-- C8 (amended): provided collecting the component references succeeds, a
by-reference query returns the not-found error naming the reference exactly
when the reference is absent from the collected set; the set holds exactly
the truthy atom `ref` values of the `comp` elements of the first
`components` section, with duplicates collapsed. -/
theorem claim_C8_ref_lookup_amended (t : Sexp) (ref : String)
    (refs : List String) (hok : get_component_refs t = .ok refs) :
    (get_component_pin_nets_core t ref = .notFound ref ↔ ref ∉ refs) ∧
    (∀ x : String, x ∈ refs ↔ x ∈ comp_ref_list t) ∧ refs.Nodup := by
  refine ⟨?_, fun x => get_component_refs_mem t refs hok x,
    get_component_refs_nodup t refs hok⟩
  unfold get_component_pin_nets_core
  simp only [hok]
  by_cases hm : ref ∈ refs
  · rw [if_pos hm]
    cases hb : build_pin_net_index t with
    | error e => simp [hb, hm]
    | ok idx => simp [hb, hm]
  · rw [if_neg hm]
    simp [hm]

/-- Witness for the amended C8 at a netlist declaring only `R1`, queried for
the absent `R2`. -/
theorem claim_C8_ref_lookup_amended_witness :
    get_component_refs exNoNetsTree = .ok ["R1"] ∧
    ((get_component_pin_nets_core exNoNetsTree "R2" = .notFound "R2" ↔
        "R2" ∉ ["R1"]) ∧
      (∀ x : String, x ∈ ["R1"] ↔ x ∈ comp_ref_list exNoNetsTree) ∧
      ("R1" :: ([] : List String)).Nodup) :=
  ⟨rfl, claim_C8_ref_lookup_amended exNoNetsTree "R2" ["R1"] rfl⟩

/-- C10: a by-reference query for a reference that is in the component set
but has no entries in the pin-to-net index succeeds with an empty pin list
(`{'reference': ref, 'pins': []}`) rather than any error. -/
theorem claim_C10_empty_pins (t : Sexp) (ref : String) (refs : List String)
    (idx : List ((String × String) × (Sexp × Sexp)))
    (hok : get_component_refs t = .ok refs) (hmem : ref ∈ refs)
    (hidx : build_pin_net_index t = .ok idx)
    (hnone : ∀ e ∈ idx, e.1.1 ≠ ref) :
    get_component_pin_nets_core t ref = .ok ref [] := by
  unfold get_component_pin_nets_core
  simp only [hok]
  rw [if_pos hmem]
  simp only [hidx]
  have hf : idx.filter (fun e => e.1.1 = ref) = [] := by
    rw [List.filter_eq_nil_iff]
    intro e he
    simp [hnone e he]
  simp [hf, pySort]

/-- Witness for C10 at a netlist declaring `R1` and holding no `nets`
section at all. -/
theorem claim_C10_empty_pins_witness :
    get_component_refs exNoNetsTree = .ok ["R1"] ∧ "R1" ∈ ["R1"] ∧
    build_pin_net_index exNoNetsTree =
      .ok ([] : List ((String × String) × (Sexp × Sexp))) ∧
    get_component_pin_nets_core exNoNetsTree "R1" = .ok "R1" [] :=
  ⟨rfl, by simp, rfl,
    claim_C10_empty_pins exNoNetsTree "R1" ["R1"] [] rfl (by simp) rfl
      (by intro e he; cases he)⟩

/-- The two numerically-tied output records of the tie example. -/
def exTiePin1 : PinRec := ⟨"1", .atom "", .atom "N"⟩

def exTiePin01 : PinRec := ⟨"01", .atom "", .atom "N"⟩

/-- Counterexample to C4 as stated: pins `"1"` and `"01"` of `R1` both parse
to the integer 1; the code's stable sort leaves them in index order
`["1", "01"]`, which is not sorted by the claimed key (whose tie-breaker is
the original pin-number string, and `"01" < "1"`). -/
theorem claim_C4_counterexample :
    get_component_pin_nets_core exTieTree "R1" =
      .ok "R1" [exTiePin1, exTiePin01] ∧
    ¬ List.Pairwise (fun a b => specPinLe a b = true) [exTiePin1, exTiePin01] := by
  refine ⟨rfl, ?_⟩
  intro hp
  rw [List.pairwise_cons] at hp
  have h := hp.1 exTiePin01 (by simp)
  rw [show specPinLe exTiePin1 exTiePin01 = false from rfl] at h
  cases h

/-- C4 (amended): every by-reference query result is sorted ascending by the
dual key (numeric pin numbers by value before all non-numeric ones, which
compare as strings), is a permutation of the records filtered from the pin
index, and echoes the queried reference; ties among numeric pins keep their
index (insertion) order by sort stability, as the `["1", "01"]` example
shows; pins `["10", "2", "A1"]` sort to `["2", "10", "A1"]`. -/
theorem claim_C4_pin_sort_amended :
    (∀ (t : Sexp) (ref r : String) (ps : List PinRec),
      get_component_pin_nets_core t ref = .ok r ps →
      r = ref ∧ ps.Pairwise (fun a b => pinLe a b = true) ∧
      ∃ idx, build_pin_net_index t = .ok idx ∧
        List.Perm ps ((idx.filter (fun e => e.1.1 = ref)).map
          (fun e => PinRec.mk e.1.2 e.2.1 e.2.2))) ∧
    get_component_pin_nets_core exNumericTree "U1" =
      .ok "U1" [⟨"2", .atom "", .atom "N"⟩, ⟨"10", .atom "", .atom "N"⟩,
                ⟨"A1", .atom "", .atom "N"⟩] ∧
    get_component_pin_nets_core exTieTree "R1" =
      .ok "R1" [exTiePin1, exTiePin01] := by
  refine ⟨?_, rfl, rfl⟩
  intro t ref r ps h
  unfold get_component_pin_nets_core at h
  cases hre : get_component_refs t with
  | error e =>
    rw [hre] at h
    cases h
  | ok refs =>
    simp only [hre] at h
    by_cases hm : ref ∈ refs
    · rw [if_pos hm] at h
      cases hb : build_pin_net_index t with
      | error e =>
        simp only [hb] at h
        cases h
      | ok idx =>
        simp only [hb] at h
        simp only [RefResult.ok.injEq] at h
        obtain ⟨h1, h2⟩ := h
        refine ⟨h1.symm, ?_, idx, rfl, ?_⟩
        · rw [← h2]
          exact pySort_sorted_of pinLe _
            (fun a _ b _ => pinLe_total a b)
            (fun a _ b _ c _ hab hbc => pinLe_trans a b c hab hbc)
        · rw [← h2]
          exact pySort_perm _ _
    · rw [if_neg hm] at h
      cases h

/-- Witness for the amended C4 at the `["10", "2", "A1"]` example. -/
theorem claim_C4_pin_sort_amended_witness :
    get_component_pin_nets_core exNumericTree "U1" =
      .ok "U1" [⟨"2", .atom "", .atom "N"⟩, ⟨"10", .atom "", .atom "N"⟩,
                ⟨"A1", .atom "", .atom "N"⟩] ∧
    ("U1" = "U1" ∧
      List.Pairwise (fun a b => pinLe a b = true)
        [(⟨"2", .atom "", .atom "N"⟩ : PinRec), ⟨"10", .atom "", .atom "N"⟩,
         ⟨"A1", .atom "", .atom "N"⟩] ∧
      ∃ idx, build_pin_net_index exNumericTree = .ok idx ∧
        List.Perm [(⟨"2", .atom "", .atom "N"⟩ : PinRec),
            ⟨"10", .atom "", .atom "N"⟩, ⟨"A1", .atom "", .atom "N"⟩]
          ((idx.filter (fun e => e.1.1 = "U1")).map
            (fun e => PinRec.mk e.1.2 e.2.1 e.2.2))) :=
  ⟨rfl, claim_C4_pin_sort_amended.1 exNumericTree "U1" "U1" _ rfl⟩

/-- The two pin records of the key-disagreement example. -/
def exAA1Rec : NetRec := ⟨.atom "AA1", .atom "1", .atom ""⟩

def exA1BRec : NetRec := ⟨.atom "A1B", .atom "1", .atom ""⟩

/-- Counterexample to C5 as stated: on the net connecting `AA1` and `A1B`,
the code sorts by all alphabetic characters of the reference
(`"AA" < "AB"`), emitting `[AA1, A1B]`; the claimed key uses only the
leading letters (`"AA" > "A"`), under which that output is not sorted. -/
theorem claim_C5_counterexample :
    get_net_pins_core exLeadTree "N" = .ok "N" [exAA1Rec, exA1BRec] ∧
    ¬ List.Pairwise (fun a b => specNetRecLe a b = true)
        [exAA1Rec, exA1BRec] := by
  refine ⟨rfl, ?_⟩
  intro hp
  rw [List.pairwise_cons] at hp
  have h := hp.1 exA1BRec (by simp)
  rw [show specNetRecLe exAA1Rec exA1BRec = false from rfl] at h
  cases h

/-- C5 (amended): every resolved by-net query result is sorted by the
composite key (all alphabetic characters of the reference, then its digits
as an integer defaulting to 0, then the raw pin-number string) and is a
permutation of the resolved net's pin list from the index; references
`["C10", "C1", "R1"]` sharing a net sort to `["C1", "C10", "R1"]`. -/
theorem claim_C5_ref_sort_amended :
    (∀ (t : Sexp) (q m : String) (ps : List NetRec),
      get_net_pins_core t q = .ok m ps →
      ps.Pairwise (fun a b => netRecLe a b = true) ∧
      ∃ (idx : List (String × List NetRec)) (pins0 : List NetRec),
        build_net_pins_index t = .ok idx ∧ dictFind? m idx = some pins0 ∧
        List.Perm ps pins0) ∧
    get_net_pins_core exCNumTree "M" =
      .ok "M" [⟨.atom "C1", .atom "1", .atom ""⟩,
               ⟨.atom "C10", .atom "1", .atom ""⟩,
               ⟨.atom "R1", .atom "1", .atom ""⟩] := by
  refine ⟨?_, rfl⟩
  intro t q m ps h
  unfold get_net_pins_core at h
  cases hb : build_net_pins_index t with
  | error e =>
    rw [hb] at h
    cases h
  | ok idx =>
    simp only [hb] at h
    unfold resolve_net_query at h
    cases hf : dictFind? q idx with
    | some pins =>
      simp only [hf] at h
      cases hs : sortNetRecs pins with
      | none =>
        simp only [hs] at h
        cases h
      | some sorted =>
        simp only [hs, NetResult.ok.injEq] at h
        obtain ⟨h1, h2⟩ := h
        obtain ⟨hsort, hperm⟩ := sortNetRecs_sorted pins sorted hs
        exact ⟨h2 ▸ hsort, idx, pins, rfl, h1 ▸ hf, h2 ▸ hperm⟩
    | none =>
      simp only [hf] at h
      cases hms : (idx.map Prod.fst).filter (netNameMatches q) with
      | nil =>
        simp only [hms] at h
        cases h
      | cons m1 rest =>
        cases rest with
        | nil =>
          simp only [hms] at h
          cases hf2 : dictFind? m1 idx with
          | none =>
            simp only [hf2] at h
            cases h
          | some pins =>
            simp only [hf2] at h
            cases hs : sortNetRecs pins with
            | none =>
              simp only [hs] at h
              cases h
            | some sorted =>
              simp only [hs, NetResult.ok.injEq] at h
              obtain ⟨h1, h2⟩ := h
              obtain ⟨hsort, hperm⟩ := sortNetRecs_sorted pins sorted hs
              exact ⟨h2 ▸ hsort, idx, pins, rfl, h1 ▸ hf2, h2 ▸ hperm⟩
        | cons m2 rest2 =>
          simp only [hms] at h
          cases h

/-- Witness for the amended C5 at the `C10`/`C1`/`R1` example. -/
theorem claim_C5_ref_sort_amended_witness :
    get_net_pins_core exCNumTree "M" =
      .ok "M" [⟨.atom "C1", .atom "1", .atom ""⟩,
               ⟨.atom "C10", .atom "1", .atom ""⟩,
               ⟨.atom "R1", .atom "1", .atom ""⟩] ∧
    (List.Pairwise (fun a b => netRecLe a b = true)
        [(⟨.atom "C1", .atom "1", .atom ""⟩ : NetRec),
         ⟨.atom "C10", .atom "1", .atom ""⟩,
         ⟨.atom "R1", .atom "1", .atom ""⟩] ∧
      ∃ (idx : List (String × List NetRec)) (pins0 : List NetRec),
        build_net_pins_index exCNumTree = .ok idx ∧
        dictFind? "M" idx = some pins0 ∧
        List.Perm [(⟨.atom "C1", .atom "1", .atom ""⟩ : NetRec),
            ⟨.atom "C10", .atom "1", .atom ""⟩,
            ⟨.atom "R1", .atom "1", .atom ""⟩] pins0) :=
  ⟨rfl, claim_C5_ref_sort_amended.1 exCNumTree "M" "M" _ rfl⟩
